import Mathlib

/-!
# Verification of the ToDo repository's trip parser, storage migration and CRUD layer

Shallow embedding of the TypeScript sources:
* `src/components/trip-homonym-resolver-dialog.tsx` — `classifyPurpose`,
  `normalizeDate`, `normalizeDateRange`, `parseTripText`, the homonym resolver
  dialog's confirm gate, the localStorage→IndexedDB migration and the CRUD
  wrappers (`updateTask`, `deleteTask`, `toggleTaskComplete`, `updateCategory`,
  `deleteCategory`).

JavaScript strings are modelled as Lean `String` / `List Char`; regular
expressions are modelled by structurally equivalent decidable matchers;
`parseInt` is modelled for the non-negative inputs that occur (every call site
feeds it digit-only strings produced by a regex match), with `none` standing
for `NaN`.  `crypto.randomUUID()` is modelled by a deterministic fresh counter
(only freshness matters).  All definitions are executable.
-/

namespace ToDo

/-- ASCII whitespace as used by JS `trim()` / `\s` (the Unicode space classes
are irrelevant to the inputs considered here). -/
def isWSChar (c : Char) : Bool :=
  c = ' ' || c = '\t' || c = '\n' || c = '\r' || c = '\x0b' || c = '\x0c'

/-- `pat` is a prefix of `l` (executable, local replacement for the library
predicate). -/
def startsWithL : List Char → List Char → Bool
  | [], _ => true
  | _ :: _, [] => false
  | p :: ps, c :: cs => p = c && startsWithL ps cs

/-- `pat` occurs as a contiguous substring of `l` (JS `RegExp.test` with a
literal pattern / `String.includes`). -/
def hasSub (pat : List Char) : List Char → Bool
  | [] => pat.isEmpty
  | c :: rest => startsWithL pat (c :: rest) || hasSub pat rest

/-- JS `String.prototype.includes` for a single character. -/
def containsCh (c : Char) : List Char → Bool
  | [] => false
  | x :: xs => x = c || containsCh c xs

/-- JS `String.prototype.split` with a single-character separator. -/
def splitOnCh (sep : Char) : List Char → List (List Char)
  | [] => [[]]
  | c :: rest =>
    match splitOnCh sep rest with
    | [] => [[]]
    | p :: ps => if c = sep then [] :: p :: ps else (c :: p) :: ps

/-- JS `String.prototype.trim`: drop leading and trailing whitespace. -/
def trimL (l : List Char) : List Char :=
  ((l.dropWhile isWSChar).reverse.dropWhile isWSChar).reverse

/-- `trim` on `String`. -/
def trimS (s : String) : String := String.mk (trimL s.data)

/-- Numeric value of a digit string (most significant first). -/
def digitsToNat (l : List Char) : Nat :=
  l.foldl (fun acc c => acc * 10 + (c.toNat - 48)) 0

/-- JS `parseInt(s, 10)` restricted to unsigned input: skip leading
whitespace, parse the longest leading digit run, `NaN` (= `none`) when there is
none.  Sign handling is omitted: every call site passes digit-only strings
produced by a regex match. -/
def parseIntJS (l : List Char) : Option Nat :=
  let ds := (l.dropWhile isWSChar).takeWhile Char.isDigit
  if ds = [] then none else some (digitsToNat ds)

/-- `parseInt` applied to `parts[i]`; an out-of-range index is JS `undefined`,
and `parseInt(undefined)` is `NaN`. -/
def parseIntAt (ps : List (List Char)) (i : Nat) : Option Nat :=
  match ps[i]? with
  | none => none
  | some l => parseIntJS l

/-- Append an element to the end unless already present: the behaviour of a JS
`Set` (insertion order, deduplicated) observed through `Array.from`. -/
def insertUnique (s : List String) (x : String) : List String :=
  if x ∈ s then s else s ++ [x]

/-! ## Data model (`lib/types` is not part of the snapshot; the shapes below
are the ones actually constructed and consumed by the embedded code). -/

/-- `TripCategory` union type: the four values produced by `classifyPurpose`. -/
inductive TripCategory where
  | trip
  | education
  | vacation
  | others
deriving DecidableEq

/-- Roster member; only the fields used by the parser are modelled. -/
structure TeamMember where
  name : String
  knoxId : String
deriving DecidableEq

/-- A parsed business trip, as pushed by `parseTripText`.  `id` models
`crypto.randomUUID()` as a fresh counter; `knoxId` is `undefined`/`none` when
the name is unknown or ambiguous. -/
structure BusinessTrip where
  id : Nat
  knoxId : Option String
  name : String
  startDate : String
  endDate : String
  location : String
  purpose : String
  category : TripCategory
  status : String
  createdAt : String
  updatedAt : String
deriving DecidableEq

/-- Result record of `normalizeDateRange`. -/
structure DateRange where
  startDate : String
  endDate : String
deriving DecidableEq

/-- Result record of `parseTripText`. -/
structure ParseResult where
  trips : List BusinessTrip
  unknownNames : List String
  ambiguousTrips : List (BusinessTrip × List TeamMember)
deriving DecidableEq

/-! ## `classifyPurpose` -/

/-- Auto-classify trip category from the purpose text
(`classifyPurpose` in the source): `/연차|휴가/` → vacation, else `/교육/` →
education, else `/협력사|검진/` → others, else trip; the tests run on the
trimmed purpose. -/
def classifyPurpose (purpose : String) : TripCategory :=
  let p := trimL purpose.data
  if hasSub "연차".data p || hasSub "휴가".data p then .vacation
  else if hasSub "교육".data p then .education
  else if hasSub "협력사".data p || hasSub "검진".data p then .others
  else .trip

/-! ## Date normalization -/

/-- `[-.]`: the separator class of the short-date regexes. -/
def isSep (c : Char) : Bool := c = '-' || c = '.'

/-- The regex `^\d{1,2}[-.]\d{1,2}$` as a structural matcher: one or two
digits, a separator, one or two digits. -/
def isShortDateL (l : List Char) : Bool :=
  match l with
  | [a, s, b] => a.isDigit && isSep s && b.isDigit
  | [a, b, c, d] =>
    (a.isDigit && isSep b && c.isDigit && d.isDigit) ||
    (a.isDigit && b.isDigit && isSep c && d.isDigit)
  | [a, b, c, d, e] => a.isDigit && b.isDigit && isSep c && d.isDigit && e.isDigit
  | _ => false

/-- `isShortDate` of `normalizeDateRange` (the test runs on the trimmed
string). -/
def isShortDate (s : String) : Bool := isShortDateL (trimL s.data)

/-- `parseMonthDay` of `normalizeDateRange`: split the trimmed string on `'-'`
when present, else on `'.'`, and `parseInt` the first two parts.  `none` is
JS `NaN`. -/
def parseMonthDay (s : String) : Option Nat × Option Nat :=
  let clean := trimL s.data
  let parts := if containsCh '-' clean then splitOnCh '-' clean else splitOnCh '.' clean
  (parseIntAt parts 0, parseIntAt parts 1)

/-- JS `String(x)` for a number that may be `NaN`. -/
def numToStr : Option Nat → String
  | none => "NaN"
  | some n => toString n

/-- `String(x).padStart(2, '0')`. -/
def pad2o (x : Option Nat) : String :=
  let s := numToStr x
  if s.length < 2 then "0" ++ s else s

/-- `padStart` for an actual number. -/
def pad2 (n : Nat) : String := pad2o (some n)

/-- JS `>` on numbers that may be `NaN`: any comparison with `NaN` is false. -/
def optGT : Option Nat → Option Nat → Bool
  | some a, some b => decide (b < a)
  | _, _ => false

/-- `normalizeDate(dateStr, baseDate)`: trim; if the string matches
`^\d{1,2}[-.]\d{1,2}$`, format `` `${currentYear}-${MM}-${DD}` `` with
zero-padded month and day; otherwise return the trimmed string unchanged.
`baseYear` stands for `baseDate.getFullYear()` (the only use of `baseDate`). -/
def normalizeDate (dateStr : String) (baseYear : Int) : String :=
  let clean := trimL dateStr.data
  if isShortDateL clean then
    let parts := if containsCh '-' clean then splitOnCh '-' clean else splitOnCh '.' clean
    let m := parseIntAt parts 0
    let d := parseIntAt parts 1
    toString baseYear ++ "-" ++ pad2o m ++ "-" ++ pad2o d
  else String.mk clean

/-- `normalizeDateRange(startStr, endStr, baseDate)`: when both endpoints are
short dates, the end date gets the base year and the start date gets the
previous year exactly when the parsed start month exceeds the parsed end
month; otherwise each endpoint is normalized individually. -/
def normalizeDateRange (startStr endStr : String) (baseYear : Int) : DateRange :=
  if isShortDate startStr && isShortDate endStr then
    let s := parseMonthDay startStr
    let e := parseMonthDay endStr
    let startYear : Int := if optGT s.1 e.1 then baseYear - 1 else baseYear
    { startDate := toString startYear ++ "-" ++ pad2o s.1 ++ "-" ++ pad2o s.2
      endDate := toString baseYear ++ "-" ++ pad2o e.1 ++ "-" ++ pad2o e.2 }
  else
    { startDate := normalizeDate startStr baseYear
      endDate := normalizeDate endStr baseYear }

/-! ## `parseTripText` -/

/-- `text.split('\n').map(l => l.trim()).filter(l => l)`. -/
def prepLines (text : String) : List String :=
  ((splitOnCh '\n' text.data).map (fun l => String.mk (trimL l))).filter
    (fun s => decide (s ≠ ""))

/-- The regex `^(\d{2}-\d{2})(?:\s*~\s*(\d{2}-\d{2}))?$` as a structural
matcher.  Returns the two capture groups: the start date and, when the
optional part is present, the end date. -/
def matchDateLine (l : List Char) : Option (List Char × Option (List Char)) :=
  match l with
  | a :: b :: s1 :: c :: d :: rest =>
    if a.isDigit && b.isDigit && s1 = '-' && c.isDigit && d.isDigit then
      match rest with
      | [] => some ([a, b, s1, c, d], none)
      | _ =>
        match (rest.dropWhile isWSChar) with
        | t :: r2 =>
          if t = '~' then
            match (r2.dropWhile isWSChar) with
            | [e, f, s2, g, h] =>
              if e.isDigit && f.isDigit && s2 = '-' && g.isDigit && h.isDigit then
                some ([a, b, s1, c, d], some [e, f, s2, g, h])
              else none
            | _ => none
          else none
        | [] => none
    else none
  | _ => none

/-- Attempt to match the regex `(\d{4})-\d{2}-\d{2}` at the head of `l`,
returning the year capture. -/
def matchYMDAt (l : List Char) : Option Nat :=
  match l with
  | a :: b :: c :: d :: s1 :: e :: f :: s2 :: g :: h :: _ =>
    if a.isDigit && b.isDigit && c.isDigit && d.isDigit && s1 = '-' &&
       e.isDigit && f.isDigit && s2 = '-' && g.isDigit && h.isDigit then
      some (digitsToNat [a, b, c, d])
    else none
  | _ => none

/-- Unanchored regex search for `(\d{4})-\d{2}-\d{2}` (leftmost match),
returning the year capture. -/
def searchYMD : List Char → Option Nat
  | [] => none
  | c :: rest =>
    match matchYMDAt (c :: rest) with
    | some y => some y
    | none => searchYMD rest

/-- The base-year scan of `parseTripText`: the year of the first line
containing an explicit `YYYY-MM-DD`, else the current year
(`new Date().getFullYear()`, passed in as `defaultYear`). -/
def findBaseYear (lines : List String) (defaultYear : Int) : Int :=
  match lines.findSome? (fun l => searchYMD l.data) with
  | some y => (y : Int)
  | none => defaultYear

/-- `isName` check: the candidate name line must not start with a digit and
must differ from `'종일'` and `'반일'`. -/
def isValidName (n : String) : Bool :=
  (match n.data with
   | [] => true
   | c :: _ => !c.isDigit) && n ≠ "종일" && n ≠ "반일"

/-- `memberMap.get(name)`: all roster members whose trimmed name equals
`name`, in roster order (the map groups members by trimmed name, preserving
insertion order). -/
def lookupMembers (members : List TeamMember) (name : String) : List TeamMember :=
  members.filter (fun m => decide (trimS m.name = name))

/-- The KnoxID chosen for a parsed name: the unique candidate's id, or
`undefined` when the name is unknown or ambiguous. -/
def tripKnox (members : List TeamMember) (name : String) : Option String :=
  match lookupMembers members name with
  | [m] => some m.knoxId
  | _ => none

/-- `unknownNames.add(name)` happens exactly when the lookup finds nobody. -/
def updUnk (members : List TeamMember) (unk : List String) (name : String) : List String :=
  if lookupMembers members name = [] then insertUnique unk name else unk

/-- The object literal pushed onto `trips` by `parseTripText`. -/
def mkTrip (cnt : Nat) (knoxId : Option String) (name startDate endDate purpose now : String) :
    BusinessTrip :=
  { id := cnt, knoxId := knoxId, name := name, startDate := startDate, endDate := endDate
    location := "해외", purpose := purpose, category := classifyPurpose purpose
    status := "planned", createdAt := now, updatedAt := now }

/-- The main loop of `parseTripText`: scan the lines; at a line matching the
date pattern with at least two further lines, of which the first passes the
name check, emit a trip built from the next two lines and resume after them
(`i += 2; continue`); otherwise move to the next line.  Returns the raw trip
list and the unknown-name list (the `Set` accumulator threaded through). -/
def parseBlocks (members : List TeamMember) (baseYear : Int) (now : String) :
    Nat → List String → List String → List BusinessTrip × List String
  | _, unk, [] => ([], unk)
  | cnt, unk, l :: nameLine :: purposeLine :: rest2 =>
    match matchDateLine l.data with
    | some (g1, g2) =>
      let name := trimS nameLine
      if isValidName name then
        let purpose := trimS purposeLine
        let dr := normalizeDateRange (String.mk g1) (String.mk (g2.getD g1)) baseYear
        let t := mkTrip cnt (tripKnox members name) name dr.startDate dr.endDate purpose now
        let res := parseBlocks members baseYear now (cnt + 1) (updUnk members unk name) rest2
        (t :: res.1, res.2)
      else parseBlocks members baseYear now cnt unk (nameLine :: purposeLine :: rest2)
    | none => parseBlocks members baseYear now cnt unk (nameLine :: purposeLine :: rest2)
  | cnt, unk, _ :: rest => parseBlocks members baseYear now cnt unk rest

/-- The deduplication key `` `${trip.name}|${trip.startDate}|${trip.endDate}` ``. -/
def tripKey (t : BusinessTrip) : String :=
  t.name ++ "|" ++ t.startDate ++ "|" ++ t.endDate

/-- The deduplication pass of `parseTripText`: keep the first trip for each
key; a kept trip whose `knoxId` is `undefined` and whose name has two or more
roster candidates is also recorded, with its candidates, as ambiguous. -/
def dedupLoop (members : List TeamMember) (seen : List String) :
    List BusinessTrip → List BusinessTrip × List (BusinessTrip × List TeamMember)
  | [] => ([], [])
  | t :: rest =>
    if tripKey t ∈ seen then dedupLoop members seen rest
    else if t.knoxId = none ∧ 1 < (lookupMembers members t.name).length then
      (t :: (dedupLoop members (tripKey t :: seen) rest).1,
       (t, lookupMembers members t.name) :: (dedupLoop members (tripKey t :: seen) rest).2)
    else
      (t :: (dedupLoop members (tripKey t :: seen) rest).1,
       (dedupLoop members (tripKey t :: seen) rest).2)

/-- The scan phase of `parseTripText` (before deduplication). -/
def rawParse (text : String) (existingMembers : List TeamMember)
    (defaultYear : Int) (now : String) : List BusinessTrip × List String :=
  let lines := prepLines text
  parseBlocks existingMembers (findBaseYear lines defaultYear) now 0 [] lines

/-- `parseTripText(text, existingMembers)`.  `defaultYear` models
`new Date().getFullYear()` and `now` models `new Date().toISOString()`. -/
def parseTripText (text : String) (existingMembers : List TeamMember)
    (defaultYear : Int) (now : String) : ParseResult :=
  let raw := rawParse text existingMembers defaultYear now
  let ded := dedupLoop existingMembers [] raw.1
  { trips := ded.1, unknownNames := raw.2, ambiguousTrips := ded.2 }

/-! ## The homonym-resolver dialog's confirm gate

`TripHomonymResolverDialog` keeps a `resolutions : Record<string, string>`
state (trip id → selected knoxId, modelled as an association list keyed by the
trip's id).  The confirm button is disabled unless `isAllResolved`, and
confirming calls `onResolve(resolutions)`. -/

/-- `ambiguousTrips.every(t => resolutions[t.trip.id] !== undefined)`. -/
def isAllResolved (amb : List (BusinessTrip × List TeamMember))
    (res : List (Nat × String)) : Bool :=
  amb.all (fun pr => decide ((res.lookup pr.1.id).isSome = true))

/-- The `disabled={!isAllResolved}` attribute of the confirm button. -/
def confirmDisabled (amb : List (BusinessTrip × List TeamMember))
    (res : List (Nat × String)) : Bool :=
  !isAllResolved amb res

/-- `handleConfirm`: `onResolve(resolutions)`. -/
def handleConfirm {α : Type} (onResolve : List (Nat × String) → α)
    (res : List (Nat × String)) : α :=
  onResolve res

/-! ## localStorage → IndexedDB migration

Both stores are modelled as association lists (newest binding first).  IDB
values are stored "natively" in the source (`JSON.parse(valueStr)` when the
string is JSON, the raw string otherwise); both branches store a value
determined by the localStorage string, so the value is modelled as that
string.  `idbSet`/`idbDelete` failures are out of scope (the source awaits
them inside a `try` whose `catch` only logs). -/

/-- Combined browser storage state. -/
structure StoreState where
  ls : List (String × String)
  idb : List (String × String)
deriving DecidableEq

/-- `localStorage.getItem`. -/
def lsGet (st : StoreState) (k : String) : Option String :=
  (st.ls.find? (fun p => decide (p.1 = k))).map (·.2)

/-- `localStorage.setItem`. -/
def lsSet (st : StoreState) (k v : String) : StoreState :=
  { st with ls := (k, v) :: st.ls }

/-- `localStorage.removeItem`. -/
def lsRemove (st : StoreState) (k : String) : StoreState :=
  { st with ls := st.ls.filter (fun p => decide (p.1 ≠ k)) }

/-- `idbGet` (the key-value store read). -/
def idbGet (st : StoreState) (k : String) : Option String :=
  (st.idb.find? (fun p => decide (p.1 = k))).map (·.2)

/-- `idbSet` (the key-value store write). -/
def idbSetOp (st : StoreState) (k v : String) : StoreState :=
  { st with idb := (k, v) :: st.idb }

/-- `STORAGE_KEY`. -/
def STORAGE_KEY : String := "local-tasks-data"

/-- `IDB_MIGRATION_KEY`. -/
def IDB_MIGRATION_KEY : String := "local-tasks-idb-migrated-v1"

/-- `IDB_SYNC_KEYS` (the tracked keys). -/
def IDB_SYNC_KEYS : List String :=
  [ "local-tasks-data", "local-tasks-quick-links", "local-tasks-notes",
    "local-tasks-labels", "local-tasks-theme", "local-tasks-layout",
    "local-tasks-layout-state", "local-tasks-layout-presets",
    "local-tasks-team-members", "local-tasks-business-trips",
    "local-tasks-trip-records", "tripNameResolutions",
    "tripDestinationMappings", "calendar-settings", "calendar-collapsed-weeks",
    "search-history", "sidebar_calendar_expanded",
    "sidebar_quicklinks_expanded", "sidebar_pinnedmemos_expanded",
    "team-member-custom-columns", "team-member-visible-columns", "tripViewMode",
    "tripCategoryColors", "ganttViewPrefs", "tripRecordColumns",
    "tripRecordHeaders", "local-tasks-current-view", "local-tasks-current-month",
    "local-tasks-selected-date", "local-tasks-selected-category-ids",
    IDB_MIGRATION_KEY ]

/-- `shouldSyncKey`. -/
def shouldSyncKey (key : String) : Bool := key ∈ IDB_SYNC_KEYS

/-- `setStorageItem`: write localStorage and mirror tracked keys into IDB. -/
def setStorageItem (st : StoreState) (k v : String) : StoreState :=
  if shouldSyncKey k then idbSetOp (lsSet st k v) k v else lsSet st k v

/-- The `heavyKeys` cleaned from localStorage after migration. -/
def heavyKeys : List String :=
  [ "local-tasks-data", "local-tasks-quick-links", "local-tasks-notes",
    "local-tasks-labels", "local-tasks-team-members",
    "local-tasks-business-trips", "local-tasks-trip-records",
    "tripNameResolutions" ]

/-- Step 1 of the migration: the `for` loop copying each tracked key's
localStorage value into IDB (keys with no localStorage value are skipped). -/
def copyKeysToIdb : StoreState → List String → StoreState
  | st, [] => st
  | st, k :: ks =>
    match lsGet st k with
    | some v => copyKeysToIdb (idbSetOp st k v) ks
    | none => copyKeysToIdb st ks

/-- The `heavyKeys.forEach(k => localStorage.removeItem(k))` cleanup. -/
def removeAllLs : StoreState → List String → StoreState
  | st, [] => st
  | st, k :: ks => removeAllLs (lsRemove st k) ks

/-- `initializeIndexedDBStorage`: when the migration flag is not `'2'`, copy
the tracked keys to IDB, mark the migration complete (in both stores), and
remove the heavy keys from localStorage (via plain `localStorage.removeItem`,
which does not touch IDB); otherwise do nothing. -/
def initializeIndexedDBStorage (st : StoreState) : StoreState :=
  if lsGet st IDB_MIGRATION_KEY = some "2" then st
  else
    let st1 := copyKeysToIdb st IDB_SYNC_KEYS
    let st2 := setStorageItem st1 IDB_MIGRATION_KEY "2"
    let st3 := idbSetOp st2 IDB_MIGRATION_KEY "2"
    removeAllLs st3 heavyKeys

/-! ## CRUD wrappers

The wrappers load `AppData` from storage, mutate it, and write it back only on
success.  They are modelled as pure functions from the loaded `AppData` to the
pair (returned value, persisted `AppData` after the call). -/

/-- A task category (the shape built by `addCategory`). -/
structure Category where
  id : String
  name : String
  color : String
  order : Int
  createdAt : String
deriving DecidableEq

/-- A task (the shape built by `addTask`). -/
structure Task where
  id : String
  categoryId : String
  title : String
  assignee : String
  resourceUrl : String
  notes : String
  dueDate : Option String
  dueTime : Option String
  tags : List String
  completed : Bool
  completedAt : Option String
  isPinned : Bool
  order : Int
  createdAt : String
deriving DecidableEq

/-- The stored `AppData`. -/
structure AppData where
  categories : List Category
  tasks : List Task
deriving DecidableEq

/-- `Partial<Task>`: each field optionally present. -/
structure TaskPatch where
  id : Option String := none
  categoryId : Option String := none
  title : Option String := none
  assignee : Option String := none
  resourceUrl : Option String := none
  notes : Option String := none
  dueDate : Option (Option String) := none
  dueTime : Option (Option String) := none
  tags : Option (List String) := none
  completed : Option Bool := none
  completedAt : Option (Option String) := none
  isPinned : Option Bool := none
  order : Option Int := none
  createdAt : Option String := none

/-- The object spread `{ ...task, ...updates }`. -/
def applyTaskPatch (t : Task) (p : TaskPatch) : Task :=
  { id := p.id.getD t.id, categoryId := p.categoryId.getD t.categoryId
    title := p.title.getD t.title, assignee := p.assignee.getD t.assignee
    resourceUrl := p.resourceUrl.getD t.resourceUrl, notes := p.notes.getD t.notes
    dueDate := p.dueDate.getD t.dueDate, dueTime := p.dueTime.getD t.dueTime
    tags := p.tags.getD t.tags, completed := p.completed.getD t.completed
    completedAt := p.completedAt.getD t.completedAt
    isPinned := p.isPinned.getD t.isPinned, order := p.order.getD t.order
    createdAt := p.createdAt.getD t.createdAt }

/-- `Partial<Category>`. -/
structure CategoryPatch where
  id : Option String := none
  name : Option String := none
  color : Option String := none
  order : Option Int := none
  createdAt : Option String := none

/-- The object spread `{ ...category, ...updates }`. -/
def applyCategoryPatch (c : Category) (p : CategoryPatch) : Category :=
  { id := p.id.getD c.id, name := p.name.getD c.name, color := p.color.getD c.color
    order := p.order.getD c.order, createdAt := p.createdAt.getD c.createdAt }

/-- `findIndex` followed by an in-place assignment of `f` at the found index:
returns the updated element (the source returns `data.xs[index]` after the
assignment) and the updated list; `(none, l)` when nothing matches. -/
def updateListAt (p : α → Bool) (f : α → α) : List α → Option α × List α
  | [] => (none, [])
  | x :: xs =>
    if p x then (some (f x), f x :: xs)
    else
      let res := updateListAt p f xs
      (res.1, x :: res.2)

/-- `updateTask(id, updates)`: patch the first task with the given id and
persist; return `null` and leave the store untouched when the id matches no
task. -/
def updateTask (data : AppData) (id : String) (patch : TaskPatch) :
    Option Task × AppData :=
  match updateListAt (fun t => decide (t.id = id)) (fun t => applyTaskPatch t patch)
      data.tasks with
  | (none, _) => (none, data)
  | (some t, tasks) => (some t, { data with tasks := tasks })

/-- `deleteTask(id)`: remove the first task with the given id and persist;
return `false` and leave the store untouched when the id matches no task. -/
def deleteTask (data : AppData) (id : String) : Bool × AppData :=
  match data.tasks.findIdx? (fun t => decide (t.id = id)) with
  | none => (false, data)
  | some i => (true, { data with tasks := data.tasks.eraseIdx i })

/-- `toggleTaskComplete(id)`: flip `completed`, stamp or clear `completedAt`
(`now` models `new Date().toISOString()`), persist; `null` and untouched store
when the id matches no task. -/
def toggleTaskComplete (data : AppData) (id : String) (now : String) :
    Option Task × AppData :=
  match updateListAt (fun t => decide (t.id = id))
      (fun t =>
        let newCompleted := !t.completed
        { t with completed := newCompleted
                 completedAt := if newCompleted then some now else none })
      data.tasks with
  | (none, _) => (none, data)
  | (some t, tasks) => (some t, { data with tasks := tasks })

/-- `updateCategory(id, updates)`. -/
def updateCategory (data : AppData) (id : String) (patch : CategoryPatch) :
    Option Category × AppData :=
  match updateListAt (fun c => decide (c.id = id)) (fun c => applyCategoryPatch c patch)
      data.categories with
  | (none, _) => (none, data)
  | (some c, categories) => (some c, { data with categories := categories })

/-- `deleteCategory(id)`: on a hit, delete every task whose `categoryId` is the
deleted category's id, splice the category out, persist, return `true`; on a
miss return `false` with the store untouched. -/
def deleteCategory (data : AppData) (id : String) : Bool × AppData :=
  match data.categories.findIdx? (fun c => decide (c.id = id)) with
  | none => (false, data)
  | some i =>
    (true, { categories := data.categories.eraseIdx i
             tasks := data.tasks.filter (fun t => decide (t.categoryId ≠ id)) })

/-! ## Substring lemmas -/

theorem startsWithL_iff : ∀ (pat l : List Char),
    startsWithL pat l = true ↔ ∃ t, l = pat ++ t
  | [], l => by simp [startsWithL]
  | p :: ps, [] => by simp [startsWithL]
  | p :: ps, c :: cs => by
    simp only [startsWithL, Bool.and_eq_true, decide_eq_true_eq,
      startsWithL_iff ps cs, List.cons_append]
    constructor
    · rintro ⟨rfl, t, rfl⟩
      exact ⟨t, rfl⟩
    · rintro ⟨t, ht⟩
      cases ht
      exact ⟨rfl, t, rfl⟩

theorem hasSub_iff : ∀ (pat l : List Char),
    hasSub pat l = true ↔ ∃ a b, l = a ++ pat ++ b
  | pat, [] => by
    simp only [hasSub, List.isEmpty_iff]
    constructor
    · rintro rfl
      exact ⟨[], [], rfl⟩
    · rintro ⟨a, b, h⟩
      rcases List.append_eq_nil.1 h.symm with ⟨h1, h2⟩
      exact (List.append_eq_nil.1 h1).2
  | pat, c :: rest => by
    simp only [hasSub, Bool.or_eq_true, startsWithL_iff, hasSub_iff pat rest]
    constructor
    · rintro (⟨t, ht⟩ | ⟨a, b, h⟩)
      · exact ⟨[], t, by simp [ht]⟩
      · exact ⟨c :: a, b, by simp [h]⟩
    · rintro ⟨a, b, h⟩
      cases a with
      | nil => exact Or.inl ⟨b, by simpa using h⟩
      | cons a0 as =>
        right
        injection h with h1 h2
        exact ⟨as, b, h2⟩

theorem dropWhile_through (p0 : Char) (pr : List Char) (h : isWSChar p0 = false) :
    ∀ (a b : List Char),
      ∃ a2, (a ++ (p0 :: pr) ++ b).dropWhile isWSChar = a2 ++ (p0 :: pr) ++ b := by
  intro a b
  induction a with
  | nil => exact ⟨[], by simp [List.dropWhile_cons, h]⟩
  | cons x xs ih =>
    by_cases hx : isWSChar x = true
    · simpa [List.dropWhile_cons, hx] using ih
    · exact ⟨x :: xs, by simp [List.dropWhile_cons, hx]⟩

theorem trimL_decomp (l : List Char) : ∃ a b, l = a ++ trimL l ++ b := by
  refine ⟨l.takeWhile isWSChar,
    ((l.dropWhile isWSChar).reverse.takeWhile isWSChar).reverse, ?_⟩
  have h1 : l.takeWhile isWSChar ++ l.dropWhile isWSChar = l :=
    List.takeWhile_append_dropWhile _ _
  have h2 : List.takeWhile isWSChar (l.dropWhile isWSChar).reverse ++
      List.dropWhile isWSChar (l.dropWhile isWSChar).reverse =
      (l.dropWhile isWSChar).reverse := List.takeWhile_append_dropWhile _ _
  have h3 : l.dropWhile isWSChar =
      trimL l ++ ((l.dropWhile isWSChar).reverse.takeWhile isWSChar).reverse := by
    have h4 := congrArg List.reverse h2
    rw [List.reverse_append, List.reverse_reverse] at h4
    rw [trimL]
    exact h4.symm
  conv_lhs => rw [← h1, h3]
  rw [List.append_assoc]

theorem hasSub_trimL_iff (pat l : List Char) (hne : pat ≠ [])
    (hws : ∀ c ∈ pat, isWSChar c = false) :
    hasSub pat (trimL l) = true ↔ hasSub pat l = true := by
  constructor
  · intro h
    obtain ⟨a, b, hab⟩ := (hasSub_iff _ _).1 h
    obtain ⟨u, v, huv⟩ := trimL_decomp l
    refine (hasSub_iff _ _).2 ⟨u ++ a, b ++ v, ?_⟩
    rw [huv, hab]
    simp [List.append_assoc]
  · intro h
    obtain ⟨a, b, hab⟩ := (hasSub_iff _ _).1 h
    obtain ⟨p0, pr, rfl⟩ : ∃ p0 pr, pat = p0 :: pr := by
      cases pat with
      | nil => exact absurd rfl hne
      | cons p0 pr => exact ⟨p0, pr, rfl⟩
    have hp0 : isWSChar p0 = false := hws p0 (by simp)
    obtain ⟨a2, h1⟩ := dropWhile_through p0 pr hp0 a b
    obtain ⟨q0, qr, hq⟩ : ∃ q0 qr, (p0 :: pr).reverse = q0 :: qr := by
      cases hrev : (p0 :: pr).reverse with
      | nil => exact absurd (List.reverse_eq_nil_iff.1 hrev) (by simp)
      | cons q0 qr => exact ⟨q0, qr, rfl⟩
    have hq0 : isWSChar q0 = false := by
      have : q0 ∈ (p0 :: pr).reverse := by rw [hq]; simp
      exact hws q0 (List.mem_reverse.1 this)
    obtain ⟨b2, h2⟩ := dropWhile_through q0 qr hq0 b.reverse a2.reverse
    refine (hasSub_iff _ _).2 ⟨a2, b2.reverse, ?_⟩
    have hrev1 : (a2 ++ (p0 :: pr) ++ b).reverse =
        b.reverse ++ (q0 :: qr) ++ a2.reverse := by
      rw [← hq]
      simp [List.reverse_append, List.append_assoc]
    rw [trimL, hab, h1, hrev1, h2]
    have hq' : (q0 :: qr).reverse = p0 :: pr := by
      rw [← hq, List.reverse_reverse]
    have hq2 : qr.reverse ++ [q0] = p0 :: pr := by simpa using hq'
    simp only [List.reverse_append, List.reverse_cons, List.reverse_reverse,
      List.append_assoc, List.cons_append, List.nil_append, List.singleton_append]
    congr 1
    calc qr.reverse ++ q0 :: b2.reverse
        = (qr.reverse ++ [q0]) ++ b2.reverse := by simp
      _ = (p0 :: pr) ++ b2.reverse := by rw [hq2]
      _ = p0 :: (pr ++ b2.reverse) := by simp

theorem hasSub_trimL_eq (pat l : List Char) (hne : pat ≠ [])
    (hws : ∀ c ∈ pat, isWSChar c = false) :
    hasSub pat (trimL l) = hasSub pat l := by
  have h := hasSub_trimL_iff pat l hne hws
  cases hl : hasSub pat l with
  | false =>
    cases ht : hasSub pat (trimL l) with
    | false => rfl
    | true => rw [hl] at h; exact (h.1 ht).symm
  | true => exact h.2 hl

/-- The keyword tests of `classifyPurpose`, read on the raw purpose string
(the keywords contain no whitespace, so trimming does not change the tests). -/
def purposeHas (purpose kw : String) : Bool := hasSub kw.data purpose.data

/-! ## Claim C9 -/

/-- C9: `classifyPurpose` applies its keyword rules in a fixed priority order:
a purpose containing `연차` or `휴가` is classified `vacation` (even if it also
contains `교육`); otherwise one containing `교육` is `education`; otherwise one
containing `협력사` or `검진` is `others`; every other purpose is `trip`. -/
theorem classifyPurpose_priority (p : String) :
    ((purposeHas p "연차" = true ∨ purposeHas p "휴가" = true) →
      classifyPurpose p = TripCategory.vacation) ∧
    (purposeHas p "연차" = false → purposeHas p "휴가" = false →
      purposeHas p "교육" = true → classifyPurpose p = TripCategory.education) ∧
    (purposeHas p "연차" = false → purposeHas p "휴가" = false →
      purposeHas p "교육" = false →
      (purposeHas p "협력사" = true ∨ purposeHas p "검진" = true) →
      classifyPurpose p = TripCategory.others) ∧
    (purposeHas p "연차" = false → purposeHas p "휴가" = false →
      purposeHas p "교육" = false → purposeHas p "협력사" = false →
      purposeHas p "검진" = false → classifyPurpose p = TripCategory.trip) := by
  have e1 : hasSub "연차".data (trimL p.data) = purposeHas p "연차" :=
    hasSub_trimL_eq _ _ (by decide) (by decide)
  have e2 : hasSub "휴가".data (trimL p.data) = purposeHas p "휴가" :=
    hasSub_trimL_eq _ _ (by decide) (by decide)
  have e3 : hasSub "교육".data (trimL p.data) = purposeHas p "교육" :=
    hasSub_trimL_eq _ _ (by decide) (by decide)
  have e4 : hasSub "협력사".data (trimL p.data) = purposeHas p "협력사" :=
    hasSub_trimL_eq _ _ (by decide) (by decide)
  have e5 : hasSub "검진".data (trimL p.data) = purposeHas p "검진" :=
    hasSub_trimL_eq _ _ (by decide) (by decide)
  refine ⟨?_, ?_, ?_, ?_⟩
  · rintro (h | h) <;> simp [classifyPurpose, e1, e2, h]
  · intro h1 h2 h3
    simp [classifyPurpose, e1, e2, e3, h1, h2, h3]
  · rintro h1 h2 h3 (h | h) <;>
      simp [classifyPurpose, e1, e2, e3, e4, e5, h1, h2, h3, h]
  · intro h1 h2 h3 h4 h5
    simp [classifyPurpose, e1, e2, e3, e4, e5, h1, h2, h3, h4, h5]

/-- Witness for C9 at a purpose containing both `연차` and `교육`. -/
theorem classifyPurpose_priority_w :
    classifyPurpose "연차교육" = TripCategory.vacation :=
  (classifyPurpose_priority "연차교육").1 (Or.inl (by decide))

/-! ## Claim C6 -/

/-- C6: in the homonym-resolver dialog, confirmation is gated on full manual
disambiguation: the confirm button is enabled (not disabled) iff every
ambiguous trip's id has an assigned knoxId in the resolutions map, and
confirming passes exactly the resolutions map to `onResolve`. -/
theorem confirm_gate {α : Type} (amb : List (BusinessTrip × List TeamMember))
    (res : List (Nat × String)) (onResolve : List (Nat × String) → α) :
    (confirmDisabled amb res = false ↔
      ∀ pr ∈ amb, ∃ k, res.lookup pr.1.id = some k) ∧
    handleConfirm onResolve res = onResolve res := by
  refine ⟨?_, rfl⟩
  simp [confirmDisabled, isAllResolved, List.all_eq_true, Option.isSome_iff_exists]

/-- Witness for C6: one ambiguous trip, resolved map of size one. -/
theorem confirm_gate_w :
    (confirmDisabled
        [(mkTrip 0 none "김철수" "2026-02-11" "2026-02-11" "출장" "T",
          [⟨"김철수", "kim1"⟩, ⟨"김철수", "kim2"⟩])] [(0, "kim1")] = false ↔
      ∀ pr ∈ [(mkTrip 0 none "김철수" "2026-02-11" "2026-02-11" "출장" "T",
          [(⟨"김철수", "kim1"⟩ : TeamMember), ⟨"김철수", "kim2"⟩])],
        ∃ k, [(0, "kim1")].lookup pr.1.id = some k) ∧
    handleConfirm (fun r => r) [(0, "kim1")] = [(0, "kim1")] :=
  confirm_gate _ _ _

/-! ## Claims C7 and C10: CRUD wrappers -/

theorem updateListAt_none (p : α → Bool) (f : α → α) :
    ∀ l : List α, (∀ x ∈ l, p x = false) → updateListAt p f l = (none, l) := by
  intro l
  induction l with
  | nil => intro h; rfl
  | cons x xs ih =>
    intro h
    have hx : p x = false := h x (by simp)
    simp [updateListAt, hx, ih (fun y hy => h y (by simp [hy]))]

theorem findIdxQ_none (p : α → Bool) :
    ∀ l : List α, (∀ x ∈ l, p x = false) → l.findIdx? p = none := by
  intro l
  induction l with
  | nil => intro h; rfl
  | cons x xs ih =>
    intro h
    have hx : p x = false := h x (by simp)
    simp [List.findIdx?_cons, hx, ih (fun y hy => h y (by simp [hy]))]

theorem findIdxQ_first (p : α → Bool) (c : α) (hc : p c = true) :
    ∀ (pre post : List α), (∀ x ∈ pre, p x = false) →
      (pre ++ c :: post).findIdx? p = some pre.length := by
  intro pre
  induction pre with
  | nil => intro post h; simp [List.findIdx?_cons, hc]
  | cons x xs ih =>
    intro post h
    have hx : p x = false := h x (by simp)
    simp [List.findIdx?_cons, hx, ih post (fun y hy => h y (by simp [hy]))]

theorem eraseIdx_append_len (c : α) : ∀ (pre post : List α),
    (pre ++ c :: post).eraseIdx pre.length = pre ++ post := by
  intro pre post
  induction pre with
  | nil => rfl
  | cons x xs ih => simp [List.eraseIdx, ih]

/-- C7: the CRUD wrappers fail atomically on a missing id: when no task
(resp. category) carries the id, `updateTask` and `toggleTaskComplete` return
`null`, `deleteTask` returns `false`, `updateCategory` returns `null`, and in
each case the persisted data is unchanged. -/
theorem crud_missing_id (data : AppData) (id : String) (tp : TaskPatch)
    (cp : CategoryPatch) (now : String)
    (hT : ∀ t ∈ data.tasks, t.id ≠ id) (hC : ∀ c ∈ data.categories, c.id ≠ id) :
    updateTask data id tp = (none, data) ∧
    toggleTaskComplete data id now = (none, data) ∧
    deleteTask data id = (false, data) ∧
    updateCategory data id cp = (none, data) := by
  have hT' : ∀ t ∈ data.tasks, decide (t.id = id) = false := fun t ht => by
    simpa using hT t ht
  have hC' : ∀ c ∈ data.categories, decide (c.id = id) = false := fun c hc => by
    simpa using hC c hc
  refine ⟨?_, ?_, ?_, ?_⟩
  · simp [updateTask, updateListAt_none _ _ _ hT']
  · simp [toggleTaskComplete, updateListAt_none _ _ _ hT']
  · simp [deleteTask, findIdxQ_none _ _ hT']
  · simp [updateCategory, updateListAt_none _ _ _ hC']

/-- A concrete category for the witnesses. -/
def catA : Category :=
  { id := "c1", name := "내할일", color := "#3b82f6", order := 0, createdAt := "T0" }

/-- A concrete task for the witnesses. -/
def taskA : Task :=
  { id := "t1", categoryId := "c1", title := "do it", assignee := ""
    resourceUrl := "", notes := "", dueDate := none, dueTime := none, tags := []
    completed := false, completedAt := none, isPinned := false, order := 0
    createdAt := "T0" }

/-- A second task, in another category, for the C10 witness. -/
def taskB : Task :=
  { taskA with id := "t2", categoryId := "c2" }

/-- Concrete stored data for the witnesses. -/
def dataA : AppData := { categories := [catA], tasks := [taskA, taskB] }

/-- Witness for C7: the id `"zz"` matches nothing in `dataA`. -/
theorem crud_missing_id_w :
    updateTask dataA "zz" {} = (none, dataA) ∧
    toggleTaskComplete dataA "zz" "T1" = (none, dataA) ∧
    deleteTask dataA "zz" = (false, dataA) ∧
    updateCategory dataA "zz" {} = (none, dataA) :=
  crud_missing_id dataA "zz" {} {} "T1" (by decide) (by decide)

/-- C10: `deleteCategory` cascades: for an existing category id (the first
category with that id), it removes that category, removes every task whose
`categoryId` equals the id, leaves all other categories and tasks unchanged
(the task list is filtered, the category list loses exactly that entry), and
returns `true`; for a non-existent id it returns `false` with the data
unchanged. -/
theorem deleteCategory_spec (data : AppData) (id : String) :
    ((∀ c ∈ data.categories, c.id ≠ id) → deleteCategory data id = (false, data)) ∧
    (∀ pre c post, data.categories = pre ++ c :: post → c.id = id →
      (∀ c' ∈ pre, c'.id ≠ id) →
      deleteCategory data id =
        (true, { categories := pre ++ post
                 tasks := data.tasks.filter (fun t => decide (t.categoryId ≠ id)) })) := by
  constructor
  · intro hC
    have hC' : ∀ c ∈ data.categories, decide (c.id = id) = false := fun c hc => by
      simpa using hC c hc
    simp [deleteCategory, findIdxQ_none _ _ hC']
  · intro pre c post hcats hc hpre
    have hc' : decide (c.id = id) = true := by simpa using hc
    have hpre' : ∀ x ∈ pre, decide (x.id = id) = false := fun x hx => by
      simpa using hpre x hx
    have hfind := findIdxQ_first (fun c => decide (c.id = id)) c hc' pre post hpre'
    simp [deleteCategory, hcats, hfind, eraseIdx_append_len]

/-- Witness for C10: deleting `"c1"` from `dataA` drops `catA` and `taskA`
but keeps `taskB`. -/
theorem deleteCategory_spec_w :
    deleteCategory dataA "c1" =
      (true, { categories := ([] : List Category) ++ []
               tasks := dataA.tasks.filter (fun t => decide (t.categoryId ≠ "c1")) }) :=
  (deleteCategory_spec dataA "c1").2 [] catA [] rfl rfl (by decide)

/-! ## Claim C2: `normalizeDateRange` on short-form endpoints -/

theorem digit_toNat_lt {c : Char} (h : c.isDigit = true) : c.toNat - 48 < 10 := by
  simp [Char.isDigit] at h
  obtain ⟨h1, h2⟩ := h
  have h3 : c.val.toNat ≤ 57 := by
    rw [UInt32.le_def] at h2
    exact_mod_cast h2
  have h4 : c.toNat = c.val.toNat := rfl
  omega

theorem digit_ne {c : Char} (h : c.isDigit = true) (d : Char)
    (hd : d.isDigit = false) : ¬c = d := by
  intro he
  subst he
  rw [h] at hd
  cases hd

theorem digit_not_ws {c : Char} (h : c.isDigit = true) : isWSChar c = false := by
  cases hw : isWSChar c with
  | false => rfl
  | true =>
    exfalso
    simp only [isWSChar, Bool.or_eq_true, decide_eq_true_eq] at hw
    rcases hw with ((((rfl | rfl) | rfl) | rfl) | rfl) | rfl <;>
      exact absurd h (by decide)

theorem containsCh_iff (c : Char) : ∀ l, containsCh c l = true ↔ c ∈ l := by
  intro l
  induction l with
  | nil => simp [containsCh]
  | cons x xs ih =>
    simp only [containsCh, Bool.or_eq_true, decide_eq_true_eq, ih, List.mem_cons]
    constructor
    · rintro (rfl | h)
      · exact Or.inl rfl
      · exact Or.inr h
    · rintro (rfl | h)
      · exact Or.inl rfl
      · exact Or.inr h

theorem splitOnCh_no_sep (sep : Char) : ∀ l, (∀ c ∈ l, ¬c = sep) →
    splitOnCh sep l = [l] := by
  intro l
  induction l with
  | nil => intro _; rfl
  | cons x xs ih =>
    intro h
    have hx : ¬x = sep := h x (by simp)
    simp [splitOnCh, ih (fun c hc => h c (by simp [hc])), hx]

theorem splitOnCh_split (sep : Char) (v : List Char) (hv : ∀ c ∈ v, ¬c = sep) :
    ∀ u, (∀ c ∈ u, ¬c = sep) → splitOnCh sep (u ++ sep :: v) = [u, v] := by
  intro u
  induction u with
  | nil => intro _; simp [splitOnCh, splitOnCh_no_sep sep v hv]
  | cons x xs ih =>
    intro h
    have hx : ¬x = sep := h x (by simp)
    simp [splitOnCh, ih (fun c hc => h c (by simp [hc])), hx]

theorem takeWhile_all (p : α → Bool) : ∀ l : List α, (∀ c ∈ l, p c = true) →
    l.takeWhile p = l := by
  intro l
  induction l with
  | nil => intro _; rfl
  | cons x xs ih =>
    intro h
    simp [List.takeWhile_cons, h x (by simp), ih (fun c hc => h c (by simp [hc]))]

theorem parseIntJS_digits (l : List Char) (hne : l ≠ [])
    (hd : ∀ c ∈ l, c.isDigit = true) : parseIntJS l = some (digitsToNat l) := by
  obtain ⟨c, rest, rfl⟩ : ∃ c rest, l = c :: rest := by
    cases l with
    | nil => exact absurd rfl hne
    | cons c rest => exact ⟨c, rest, rfl⟩
  have hcd : c.isDigit = true := hd c (by simp)
  have h1 : (c :: rest).dropWhile isWSChar = c :: rest := by
    simp [List.dropWhile_cons, digit_not_ws hcd]
  have h2 : (c :: rest).takeWhile Char.isDigit = c :: rest := takeWhile_all _ _ hd
  rw [parseIntJS, h1, h2]
  simp

theorem dtn1 {a : Char} (h : a.isDigit = true) : digitsToNat [a] < 100 := by
  have := digit_toNat_lt h
  simp [digitsToNat]
  omega

theorem dtn2 {a b : Char} (ha : a.isDigit = true) (hb : b.isDigit = true) :
    digitsToNat [a, b] < 100 := by
  have h1 := digit_toNat_lt ha
  have h2 := digit_toNat_lt hb
  simp [digitsToNat]
  omega

theorem parseShape (u v : List Char) (s : Char) (hsep : isSep s = true)
    (hu : u ≠ []) (hv : v ≠ []) (hud : ∀ c ∈ u, c.isDigit = true)
    (hvd : ∀ c ∈ v, c.isDigit = true) :
    (parseIntAt (if containsCh '-' (u ++ s :: v) then splitOnCh '-' (u ++ s :: v)
        else splitOnCh '.' (u ++ s :: v)) 0,
     parseIntAt (if containsCh '-' (u ++ s :: v) then splitOnCh '-' (u ++ s :: v)
        else splitOnCh '.' (u ++ s :: v)) 1) =
      (some (digitsToNat u), some (digitsToNat v)) := by
  have hu' : ∀ c ∈ u, ¬c = '-' := fun c hc => digit_ne (hud c hc) _ (by decide)
  have hv' : ∀ c ∈ v, ¬c = '-' := fun c hc => digit_ne (hvd c hc) _ (by decide)
  have hu2 : ∀ c ∈ u, ¬c = '.' := fun c hc => digit_ne (hud c hc) _ (by decide)
  have hv2 : ∀ c ∈ v, ¬c = '.' := fun c hc => digit_ne (hvd c hc) _ (by decide)
  have hsep' : s = '-' ∨ s = '.' := by
    simpa [isSep, Bool.or_eq_true, decide_eq_true_eq] using hsep
  rcases hsep' with rfl | rfl
  · have hc : containsCh '-' (u ++ '-' :: v) = true := (containsCh_iff _ _).2 (by simp)
    rw [if_pos hc, splitOnCh_split '-' v hv' u hu']
    simp [parseIntAt, parseIntJS_digits u hu hud, parseIntJS_digits v hv hvd]
  · have hnc : containsCh '-' (u ++ '.' :: v) = false := by
      cases hx : containsCh '-' (u ++ '.' :: v) with
      | false => rfl
      | true =>
        exfalso
        have hmem := (containsCh_iff _ _).1 hx
        simp only [List.mem_append, List.mem_cons] at hmem
        rcases hmem with h1 | h1 | h1
        · exact hu' _ h1 rfl
        · exact absurd h1 (by decide)
        · exact hv' _ h1 rfl
    rw [if_neg (by simp [hnc]), splitOnCh_split '.' v hv2 u hu2]
    simp [parseIntAt, parseIntJS_digits u hu hud, parseIntJS_digits v hv hvd]

theorem shortParse (l : List Char) (h : isShortDateL l = true) :
    ∃ m d, m < 100 ∧ d < 100 ∧
      (parseIntAt (if containsCh '-' l then splitOnCh '-' l else splitOnCh '.' l) 0,
       parseIntAt (if containsCh '-' l then splitOnCh '-' l else splitOnCh '.' l) 1) =
        (some m, some d) := by
  rcases l with _ | ⟨a, _ | ⟨b, _ | ⟨c, _ | ⟨d, _ | ⟨e, _ | ⟨f, tl⟩⟩⟩⟩⟩⟩
  · exact absurd h (by simp [isShortDateL])
  · exact absurd h (by simp [isShortDateL])
  · exact absurd h (by simp [isShortDateL])
  · simp only [isShortDateL, Bool.and_eq_true] at h
    obtain ⟨⟨ha, hsep⟩, hc⟩ := h
    exact ⟨_, _, dtn1 ha, dtn1 hc,
      parseShape [a] [c] b hsep (by simp) (by simp)
        (by intro x hx; simp at hx; subst hx; exact ha)
        (by intro x hx; simp at hx; subst hx; exact hc)⟩
  · simp only [isShortDateL, Bool.or_eq_true, Bool.and_eq_true] at h
    rcases h with ⟨⟨⟨ha, hsep⟩, hc⟩, hd⟩ | ⟨⟨⟨ha, hb⟩, hsep⟩, hd⟩
    · exact ⟨_, _, dtn1 ha, dtn2 hc hd,
        parseShape [a] [c, d] b hsep (by simp) (by simp)
          (by intro x hx; simp at hx; subst hx; exact ha)
          (by intro x hx; rcases List.mem_cons.1 hx with rfl | hx2
              · exact hc
              · simp at hx2; subst hx2; exact hd)⟩
    · exact ⟨_, _, dtn2 ha hb, dtn1 hd,
        parseShape [a, b] [d] c hsep (by simp) (by simp)
          (by intro x hx; rcases List.mem_cons.1 hx with rfl | hx2
              · exact ha
              · simp at hx2; subst hx2; exact hb)
          (by intro x hx; simp at hx; subst hx; exact hd)⟩
  · simp only [isShortDateL, Bool.and_eq_true] at h
    obtain ⟨⟨⟨⟨ha, hb⟩, hsep⟩, hd⟩, he⟩ := h
    exact ⟨_, _, dtn2 ha hb, dtn2 hd he,
      parseShape [a, b] [d, e] c hsep (by simp) (by simp)
        (by intro x hx; rcases List.mem_cons.1 hx with rfl | hx2
            · exact ha
            · simp at hx2; subst hx2; exact hb)
        (by intro x hx; rcases List.mem_cons.1 hx with rfl | hx2
            · exact hd
            · simp at hx2; subst hx2; exact he)⟩
  · exact absurd h (by simp [isShortDateL])

theorem pad2_length (n : Nat) (h : n < 100) : (pad2 n).length = 2 := by
  have hall : ∀ k, k < 100 → (pad2 k).length = 2 := by decide
  exact hall n h

/-- C2: for every date range with both endpoints in short form, the end date
gets the base year and the start date gets the previous year exactly when the
(parsed) start month strictly exceeds the end month; both outputs are
`YYYY-MM-DD` strings with zero-padded month and day. -/
theorem normalizeDateRange_short (s e : String) (y : Int) (m1 d1 m2 d2 : Nat)
    (hs : isShortDate s = true) (he : isShortDate e = true)
    (hps : parseMonthDay s = (some m1, some d1))
    (hpe : parseMonthDay e = (some m2, some d2)) :
    normalizeDateRange s e y =
      { startDate := toString (if m2 < m1 then y - 1 else y) ++ "-" ++
          pad2 m1 ++ "-" ++ pad2 d1
        endDate := toString y ++ "-" ++ pad2 m2 ++ "-" ++ pad2 d2 } ∧
    (pad2 m1).length = 2 ∧ (pad2 d1).length = 2 ∧
    (pad2 m2).length = 2 ∧ (pad2 d2).length = 2 := by
  obtain ⟨m, d, hm, hd, hpair⟩ := shortParse (trimL s.data) hs
  have heq1 : ((some m : Option Nat), (some d : Option Nat)) = (some m1, some d1) := by
    rw [← hpair]
    exact hps
  obtain ⟨m', d', hm', hd', hpair'⟩ := shortParse (trimL e.data) he
  have heq2 : ((some m' : Option Nat), (some d' : Option Nat)) = (some m2, some d2) := by
    rw [← hpair']
    exact hpe
  injection heq1 with heqa heqb
  injection heq2 with heqc heqd
  injection heqa with heqa
  injection heqb with heqb
  injection heqc with heqc
  injection heqd with heqd
  subst heqa
  subst heqb
  subst heqc
  subst heqd
  refine ⟨?_, pad2_length _ hm, pad2_length _ hd, pad2_length _ hm', pad2_length _ hd'⟩
  rw [normalizeDateRange, if_pos (by rw [hs, he]; rfl), hps, hpe]
  simp only [optGT, pad2, decide_eq_true_eq]

/-- Witness for C2: a year-crossing range with mixed separators. -/
theorem normalizeDateRange_short_w :
    normalizeDateRange "12-29" "2.9" 2026 =
      { startDate := "2025-12-29", endDate := "2026-02-09" } := by
  have h := normalizeDateRange_short "12-29" "2.9" 2026 12 29 2 9
    (by decide) (by decide) (by decide) (by decide)
  rw [h.1]
  rfl

/-! ## Claim C5: the migration is one-time -/

theorem find?_filter_ne (l : List (String × String)) (k k' : String) (h : ¬k' = k) :
    (l.filter (fun p => decide (p.1 ≠ k))).find? (fun p => decide (p.1 = k')) =
      l.find? (fun p => decide (p.1 = k')) := by
  induction l with
  | nil => rfl
  | cons x xs ih =>
    rw [List.filter_cons]
    by_cases hx : x.1 = k
    · have hd : decide (x.1 ≠ k) = false := by simp [hx]
      have hpx : ¬(decide (x.1 = k') = true) := by
        simp only [decide_eq_true_eq]
        rw [hx]
        exact fun e => h e.symm
      rw [hd, if_neg (by simp), ih,
        List.find?_cons_of_neg _ (by simpa using hpx)]
    · have hd : decide (x.1 ≠ k) = true := by simpa using hx
      rw [hd, if_pos rfl]
      by_cases hk' : x.1 = k'
      · rw [List.find?_cons_of_pos _ (by simpa using hk'),
          List.find?_cons_of_pos _ (by simpa using hk')]
      · rw [List.find?_cons_of_neg _ (by simpa using hk'),
          List.find?_cons_of_neg _ (by simpa using hk'), ih]

theorem find?_filter_same (l : List (String × String)) (k : String) :
    (l.filter (fun p => decide (p.1 ≠ k))).find? (fun p => decide (p.1 = k)) = none := by
  induction l with
  | nil => rfl
  | cons x xs ih =>
    rw [List.filter_cons]
    by_cases hx : x.1 = k
    · have hd : decide (x.1 ≠ k) = false := by simp [hx]
      rw [hd, if_neg (by simp), ih]
    · have hd : decide (x.1 ≠ k) = true := by simpa using hx
      rw [hd, if_pos rfl, List.find?_cons_of_neg _ (by simpa using hx), ih]

theorem lsGet_lsSet (st : StoreState) (k v k' : String) :
    lsGet (lsSet st k v) k' = if k' = k then some v else lsGet st k' := by
  by_cases h : k' = k
  · subst h
    simp [lsGet, lsSet, List.find?_cons]
  · have h2 : ¬k = k' := fun e => h e.symm
    simp [lsGet, lsSet, List.find?_cons, h, h2]

theorem lsGet_lsRemove (st : StoreState) (k k' : String) :
    lsGet (lsRemove st k) k' = if k' = k then none else lsGet st k' := by
  have hbase : lsGet (lsRemove st k) k' =
      ((st.ls.filter (fun p => decide (p.1 ≠ k))).find?
        (fun p => decide (p.1 = k'))).map (fun p => p.2) := rfl
  by_cases h : k' = k
  · subst h
    rw [hbase, find?_filter_same, if_pos rfl]
    rfl
  · rw [hbase, find?_filter_ne st.ls k k' h, if_neg h]
    rfl

theorem idbGet_idbSetOp (st : StoreState) (k v k' : String) :
    idbGet (idbSetOp st k v) k' = if k' = k then some v else idbGet st k' := by
  by_cases h : k' = k
  · subst h
    simp [idbGet, idbSetOp, List.find?_cons]
  · have h2 : ¬k = k' := fun e => h e.symm
    simp [idbGet, idbSetOp, List.find?_cons, h, h2]

theorem copyKeys_ls : ∀ (keys : List String) (st : StoreState),
    (copyKeysToIdb st keys).ls = st.ls := by
  intro keys
  induction keys with
  | nil => intro st; rfl
  | cons k ks ih =>
    intro st
    rw [copyKeysToIdb]
    cases h : lsGet st k with
    | none => exact ih st
    | some v => exact ih (idbSetOp st k v)

theorem copyKeys_lsGet (keys : List String) (st : StoreState) (k : String) :
    lsGet (copyKeysToIdb st keys) k = lsGet st k := by
  rw [lsGet, copyKeys_ls]
  rfl

theorem copyKeys_idbGet_not_mem : ∀ (keys : List String) (st : StoreState) (k : String),
    k ∉ keys → idbGet (copyKeysToIdb st keys) k = idbGet st k := by
  intro keys
  induction keys with
  | nil => intro st k _; rfl
  | cons k' ks ih =>
    intro st k hk
    have hne : ¬k = k' := fun e => hk (by simp [e])
    have hks : k ∉ ks := fun e => hk (by simp [e])
    rw [copyKeysToIdb]
    cases h : lsGet st k' with
    | none => exact ih st k hks
    | some v =>
      rw [ih _ k hks, idbGet_idbSetOp]
      simp [hne]

theorem copyKeys_idbGet_mem : ∀ (keys : List String) (st : StoreState) (k v : String),
    k ∈ keys → lsGet st k = some v →
    idbGet (copyKeysToIdb st keys) k = some v := by
  intro keys
  induction keys with
  | nil => intro st k v hk _; cases hk
  | cons k' ks ih =>
    intro st k v hk hv
    rw [copyKeysToIdb]
    by_cases hks : k ∈ ks
    · cases h : lsGet st k' with
      | none => exact ih st k v hks hv
      | some w =>
        refine ih _ k v hks ?_
        rw [← hv]
        rfl
    · have hkk : k = k' := by
        rcases List.mem_cons.1 hk with h | h
        · exact h
        · exact absurd h hks
      subst hkk
      rw [hv]
      rw [copyKeys_idbGet_not_mem ks _ k hks, idbGet_idbSetOp]
      simp

theorem removeAll_idb : ∀ (keys : List String) (st : StoreState),
    (removeAllLs st keys).idb = st.idb := by
  intro keys
  induction keys with
  | nil => intro st; rfl
  | cons k ks ih =>
    intro st
    rw [removeAllLs, ih]
    rfl

theorem removeAll_idbGet (keys : List String) (st : StoreState) (k : String) :
    idbGet (removeAllLs st keys) k = idbGet st k := by
  rw [idbGet, removeAll_idb]
  rfl

theorem removeAll_lsGet : ∀ (keys : List String) (st : StoreState) (k : String),
    lsGet (removeAllLs st keys) k = if k ∈ keys then none else lsGet st k := by
  intro keys
  induction keys with
  | nil => intro st k; simp [removeAllLs]
  | cons k' ks ih =>
    intro st k
    rw [removeAllLs, ih, lsGet_lsRemove]
    by_cases h1 : k ∈ ks
    · simp [h1]
    · by_cases h2 : k = k'
      · simp [h1, h2]
      · simp [h1, h2]

theorem lsGet_idbSetOp (st : StoreState) (k v k' : String) :
    lsGet (idbSetOp st k v) k' = lsGet st k' := rfl

theorem idbGet_lsSet (st : StoreState) (k v k' : String) :
    idbGet (lsSet st k v) k' = idbGet st k' := rfl

theorem migration_flag (st : StoreState) :
    lsGet (initializeIndexedDBStorage st) IDB_MIGRATION_KEY = some "2" := by
  have hmignotheavy : IDB_MIGRATION_KEY ∉ heavyKeys := by decide
  have hsync : shouldSyncKey IDB_MIGRATION_KEY = true := by decide
  by_cases hflag : lsGet st IDB_MIGRATION_KEY = some "2"
  · rw [initializeIndexedDBStorage, if_pos hflag]
    exact hflag
  · rw [initializeIndexedDBStorage, if_neg hflag]
    rw [removeAll_lsGet, if_neg hmignotheavy, setStorageItem, if_pos hsync,
      lsGet_idbSetOp, lsGet_idbSetOp, lsGet_lsSet, if_pos rfl]

/-- C5: the localStorage→IndexedDB migration is one-time.  When the flag is
not `'2'`: every tracked key other than the flag key itself has its
localStorage value copied into the key-value store, the heavy keys are removed
from localStorage, and the flag is set to `'2'` in both stores.  When the flag
already is `'2'` the call leaves the state unchanged, so a second call after a
first one performs no copying and no removal. -/
theorem migration_once (st : StoreState) :
    (lsGet st IDB_MIGRATION_KEY ≠ some "2" →
      (∀ k v, k ∈ IDB_SYNC_KEYS → k ≠ IDB_MIGRATION_KEY → lsGet st k = some v →
        idbGet (initializeIndexedDBStorage st) k = some v) ∧
      (∀ k ∈ heavyKeys, lsGet (initializeIndexedDBStorage st) k = none) ∧
      lsGet (initializeIndexedDBStorage st) IDB_MIGRATION_KEY = some "2" ∧
      idbGet (initializeIndexedDBStorage st) IDB_MIGRATION_KEY = some "2") ∧
    (lsGet st IDB_MIGRATION_KEY = some "2" → initializeIndexedDBStorage st = st) ∧
    initializeIndexedDBStorage (initializeIndexedDBStorage st) =
      initializeIndexedDBStorage st := by
  have hmignotheavy : IDB_MIGRATION_KEY ∉ heavyKeys := by decide
  have hsync : shouldSyncKey IDB_MIGRATION_KEY = true := by decide
  have hidem : initializeIndexedDBStorage (initializeIndexedDBStorage st) =
      initializeIndexedDBStorage st := by
    have hf := migration_flag st
    generalize hX : initializeIndexedDBStorage st = X at hf ⊢
    rw [initializeIndexedDBStorage, if_pos hf]
  by_cases hflag : lsGet st IDB_MIGRATION_KEY = some "2"
  · have hid : initializeIndexedDBStorage st = st := by
      rw [initializeIndexedDBStorage, if_pos hflag]
    exact ⟨fun h => absurd hflag h, fun _ => hid, hidem⟩
  · have hinit : initializeIndexedDBStorage st =
        removeAllLs
          (idbSetOp (idbSetOp (lsSet (copyKeysToIdb st IDB_SYNC_KEYS)
              IDB_MIGRATION_KEY "2") IDB_MIGRATION_KEY "2")
            IDB_MIGRATION_KEY "2") heavyKeys := by
      simp [initializeIndexedDBStorage, setStorageItem, hsync, hflag]
    refine ⟨fun _ => ⟨?_, ?_, migration_flag st, ?_⟩, fun h => absurd h hflag, hidem⟩
    · intro k v hk hkm hv
      rw [hinit, removeAll_idbGet, idbGet_idbSetOp, if_neg hkm, idbGet_idbSetOp,
        if_neg hkm, idbGet_lsSet, copyKeys_idbGet_mem IDB_SYNC_KEYS st k v hk hv]
    · intro k hk
      rw [hinit, removeAll_lsGet, if_pos hk]
    · rw [hinit, removeAll_idbGet, idbGet_idbSetOp, if_pos rfl]

/-- A concrete pre-migration state for the C5 witness. -/
def stA : StoreState :=
  { ls := [("local-tasks-data", "[1]"), ("local-tasks-theme", "light")], idb := [] }

/-- Witness for C5: on `stA` (flag unset) the data key is copied into the
key-value store, the heavy key leaves localStorage, the flag becomes `'2'`,
and a second call is the identity. -/
theorem migration_once_w :
    idbGet (initializeIndexedDBStorage stA) "local-tasks-data" = some "[1]" ∧
    lsGet (initializeIndexedDBStorage stA) "local-tasks-data" = none ∧
    lsGet (initializeIndexedDBStorage stA) IDB_MIGRATION_KEY = some "2" ∧
    initializeIndexedDBStorage (initializeIndexedDBStorage stA) =
      initializeIndexedDBStorage stA :=
  ⟨((migration_once stA).1 (by decide)).1 "local-tasks-data" "[1]"
      (by decide) (by decide) (by decide),
   ((migration_once stA).1 (by decide)).2.1 "local-tasks-data" (by decide),
   ((migration_once stA).1 (by decide)).2.2.1,
   (migration_once stA).2.2⟩

/-! ## Claims C1 and C4: the scan loop -/

/-- C1: when the scanner is at a line matching `MM-DD` or `MM-DD ~ MM-DD`
(capture groups `g1`, `g2`) with at least two further lines, whose first
passes the name check (does not start with a digit, is neither `종일` nor
`반일`), it emits exactly one trip for the block, whose name is the next line
and whose purpose is the line after that, with the dates normalized by
`normalizeDateRange`, and resumes after the consumed lines. -/
theorem parse_block_step (members : List TeamMember) (baseYear : Int) (now : String)
    (cnt : Nat) (unk : List String) (l n p : String) (rest : List String)
    (g1 : List Char) (g2 : Option (List Char))
    (hd : matchDateLine l.data = some (g1, g2))
    (hn : isValidName (trimS n) = true) :
    parseBlocks members baseYear now cnt unk (l :: n :: p :: rest) =
      (mkTrip cnt (tripKnox members (trimS n)) (trimS n)
          (normalizeDateRange (String.mk g1) (String.mk (g2.getD g1)) baseYear).startDate
          (normalizeDateRange (String.mk g1) (String.mk (g2.getD g1)) baseYear).endDate
          (trimS p) now ::
        (parseBlocks members baseYear now (cnt + 1)
          (updUnk members unk (trimS n)) rest).1,
       (parseBlocks members baseYear now (cnt + 1)
          (updUnk members unk (trimS n)) rest).2) := by
  rw [parseBlocks, hd]
  simp [hn]

/-- Witness for C1: a single-date block with an unknown name. -/
theorem parse_block_step_w :
    parseBlocks [] 2026 "T" 0 [] ["02-10", "Kim", "Work"] =
      ([mkTrip 0 none "Kim" "2026-02-10" "2026-02-10" "Work" "T"], ["Kim"]) := by
  rw [parse_block_step [] 2026 "T" 0 [] "02-10" "Kim" "Work" [] "02-10".data none
    (by decide) (by decide)]
  rfl

/-- C4: the scanner is total and best-effort: a line that does not match the
date pattern is skipped; a matching date line with fewer than two further
lines is skipped; a matching date line whose following line fails the name
check is skipped (the scan resumes at the next line); no case raises an
error (the embedding is a total function). -/
theorem parse_skip (members : List TeamMember) (baseYear : Int) (now : String)
    (cnt : Nat) (unk : List String) :
    (∀ l rest, matchDateLine l.data = none →
      parseBlocks members baseYear now cnt unk (l :: rest) =
        parseBlocks members baseYear now cnt unk rest) ∧
    (∀ l rest, rest.length < 2 →
      parseBlocks members baseYear now cnt unk (l :: rest) =
        parseBlocks members baseYear now cnt unk rest) ∧
    (∀ l n p rest g1 g2, matchDateLine l.data = some (g1, g2) →
      isValidName (trimS n) = false →
      parseBlocks members baseYear now cnt unk (l :: n :: p :: rest) =
        parseBlocks members baseYear now cnt unk (n :: p :: rest)) := by
  refine ⟨?_, ?_, ?_⟩
  · intro l rest h
    match rest with
    | [] => rfl
    | [n] => rfl
    | n :: p :: rest2 =>
      rw [parseBlocks, h]
  · intro l rest h
    match rest with
    | [] => rfl
    | [n] => rfl
    | n :: p :: rest2 => exact absurd h (by simp only [List.length_cons]; omega)
  · intro l n p rest g1 g2 hd hn
    rw [parseBlocks, hd]
    simp [hn]

/-- Witness for C4: a non-date line is skipped without effect. -/
theorem parse_skip_w :
    parseBlocks [] 2026 "T" 0 [] ["hello", "02-10", "Kim", "Work"] =
      parseBlocks [] 2026 "T" 0 [] ["02-10", "Kim", "Work"] :=
  (parse_skip [] 2026 "T" 0 []).1 "hello" ["02-10", "Kim", "Work"] (by decide)

/-! ## Claims C3 and C8: invariants of the scan and the deduplication -/

theorem insertUnique_sub {s : List String} {x : String} (y : String) (h : x ∈ s) :
    x ∈ insertUnique s y := by
  rw [insertUnique]
  split
  · exact h
  · exact List.mem_append_left _ h

theorem mem_updUnk (members : List TeamMember) {unk : List String} {x : String}
    (name : String) (h : x ∈ unk) : x ∈ updUnk members unk name := by
  rw [updUnk]
  split
  · exact insertUnique_sub name h
  · exact h

theorem updUnk_self (members : List TeamMember) (unk : List String) (name : String)
    (h : lookupMembers members name = []) : name ∈ updUnk members unk name := by
  rw [updUnk, if_pos h, insertUnique]
  split
  · assumption
  · exact List.mem_append_right _ (by simp)

theorem insertUnique_nodup {s : List String} (x : String) (h : s.Nodup) :
    (insertUnique s x).Nodup := by
  rw [insertUnique]
  split
  · exact h
  · next hx =>
    rw [← List.concat_eq_append]
    exact List.Nodup.concat hx h

theorem updUnk_nodup (members : List TeamMember) {unk : List String} (name : String)
    (h : unk.Nodup) : (updUnk members unk name).Nodup := by
  rw [updUnk]
  split
  · exact insertUnique_nodup name h
  · exact h

theorem unk_mono (members : List TeamMember) (baseYear : Int) (now : String) :
    ∀ (cnt : Nat) (unk : List String) (lines : List String), ∀ x ∈ unk,
      x ∈ (parseBlocks members baseYear now cnt unk lines).2 := by
  intro cnt unk lines
  induction cnt, unk, lines using parseBlocks.induct members baseYear now with
  | case1 cnt unk => intro x hx; exact hx
  | case2 cnt unk l nameLine purposeLine rest2 g1 g2 hd nm hn ih =>
    intro x hx
    simp only [parseBlocks, hd, hn, if_true]
    exact ih x (mem_updUnk members _ hx)
  | case3 cnt unk l nameLine purposeLine rest2 g1 g2 hd nm hn ih =>
    intro x hx
    simp only [parseBlocks, hd, Bool.not_eq_true] at *
    simp only [hn, if_false]
    exact ih x hx
  | case4 cnt unk l nameLine purposeLine rest2 hd ih =>
    intro x hx
    rw [parseBlocks, hd]
    exact ih x hx
  | case5 cnt unk head rest hne ih =>
    intro x hx
    rcases rest with _ | ⟨a, _ | ⟨b, r2⟩⟩
    · exact hx
    · exact hx
    · exact absurd rfl (fun e => hne a b r2 e)

theorem unk_nodup (members : List TeamMember) (baseYear : Int) (now : String) :
    ∀ (cnt : Nat) (unk : List String) (lines : List String), unk.Nodup →
      (parseBlocks members baseYear now cnt unk lines).2.Nodup := by
  intro cnt unk lines
  induction cnt, unk, lines using parseBlocks.induct members baseYear now with
  | case1 cnt unk => intro h; exact h
  | case2 cnt unk l nameLine purposeLine rest2 g1 g2 hd nm hn ih =>
    intro h
    simp only [parseBlocks, hd, hn, if_true]
    exact ih (updUnk_nodup members _ h)
  | case3 cnt unk l nameLine purposeLine rest2 g1 g2 hd nm hn ih =>
    intro h
    simp only [Bool.not_eq_true] at hn
    simp only [parseBlocks, hd, hn, if_false]
    exact ih h
  | case4 cnt unk l nameLine purposeLine rest2 hd ih =>
    intro h
    rw [parseBlocks, hd]
    exact ih h
  | case5 cnt unk head rest hne ih =>
    intro h
    rcases rest with _ | ⟨a, _ | ⟨b, r2⟩⟩
    · exact h
    · exact h
    · exact absurd rfl (fun e => hne a b r2 e)

theorem trip_inv (members : List TeamMember) (baseYear : Int) (now : String) :
    ∀ (cnt : Nat) (unk : List String) (lines : List String),
      ∀ t ∈ (parseBlocks members baseYear now cnt unk lines).1,
        t.knoxId = tripKnox members t.name ∧
        (lookupMembers members t.name = [] →
          t.name ∈ (parseBlocks members baseYear now cnt unk lines).2) := by
  intro cnt unk lines
  induction cnt, unk, lines using parseBlocks.induct members baseYear now with
  | case1 cnt unk => intro t ht; cases ht
  | case2 cnt unk l nameLine purposeLine rest2 g1 g2 hd nm hn ih =>
    intro t ht
    simp only [parseBlocks, hd, hn, if_true] at ht ⊢
    rcases List.mem_cons.1 ht with rfl | hmem
    · refine ⟨rfl, fun hl => ?_⟩
      exact unk_mono members baseYear now _ _ _ _ (updUnk_self members unk _ hl)
    · exact ih t hmem
  | case3 cnt unk l nameLine purposeLine rest2 g1 g2 hd nm hn ih =>
    intro t ht
    simp only [Bool.not_eq_true] at hn
    simp only [parseBlocks, hd, hn, if_false] at ht ⊢
    exact ih t ht
  | case4 cnt unk l nameLine purposeLine rest2 hd ih =>
    intro t ht
    rw [parseBlocks, hd] at ht ⊢
    exact ih t ht
  | case5 cnt unk head rest hne ih =>
    intro t ht
    rcases rest with _ | ⟨a, _ | ⟨b, r2⟩⟩
    · cases ht
    · cases ht
    · exact absurd rfl (fun e => hne a b r2 e)

theorem dedup_mem (members : List TeamMember) :
    ∀ (seen : List String) (l : List BusinessTrip),
      ∀ t ∈ (dedupLoop members seen l).1, t ∈ l := by
  intro seen l
  induction seen, l using dedupLoop.induct members with
  | case1 seen => intro t ht; cases ht
  | case2 seen t rest hseen ih =>
    intro u hu
    rw [dedupLoop, if_pos hseen] at hu
    exact List.mem_cons_of_mem _ (ih u hu)
  | case3 seen t rest hnot hcond ih =>
    intro u hu
    rw [dedupLoop, if_neg hnot, if_pos hcond] at hu
    rcases List.mem_cons.1 hu with rfl | hm
    · exact List.mem_cons_self _ _
    · exact List.mem_cons_of_mem _ (ih u hm)
  | case4 seen t rest hnot hncond ih =>
    intro u hu
    rw [dedupLoop, if_neg hnot, if_neg hncond] at hu
    rcases List.mem_cons.1 hu with rfl | hm
    · exact List.mem_cons_self _ _
    · exact List.mem_cons_of_mem _ (ih u hm)

theorem dedup_not_seen (members : List TeamMember) :
    ∀ (seen : List String) (l : List BusinessTrip),
      ∀ t ∈ (dedupLoop members seen l).1, tripKey t ∉ seen := by
  intro seen l
  induction seen, l using dedupLoop.induct members with
  | case1 seen => intro t ht; cases ht
  | case2 seen t rest hseen ih =>
    intro u hu
    rw [dedupLoop, if_pos hseen] at hu
    exact ih u hu
  | case3 seen t rest hnot hcond ih =>
    intro u hu
    rw [dedupLoop, if_neg hnot, if_pos hcond] at hu
    rcases List.mem_cons.1 hu with rfl | hm
    · exact hnot
    · exact fun hk => ih u hm (List.mem_cons_of_mem _ hk)
  | case4 seen t rest hnot hncond ih =>
    intro u hu
    rw [dedupLoop, if_neg hnot, if_neg hncond] at hu
    rcases List.mem_cons.1 hu with rfl | hm
    · exact hnot
    · exact fun hk => ih u hm (List.mem_cons_of_mem _ hk)

theorem dedup_pairwise (members : List TeamMember) :
    ∀ (seen : List String) (l : List BusinessTrip),
      (dedupLoop members seen l).1.Pairwise (fun a b => tripKey a ≠ tripKey b) := by
  intro seen l
  induction seen, l using dedupLoop.induct members with
  | case1 seen => exact List.Pairwise.nil
  | case2 seen t rest hseen ih =>
    rw [dedupLoop, if_pos hseen]
    exact ih
  | case3 seen t rest hnot hcond ih =>
    rw [dedupLoop, if_neg hnot, if_pos hcond]
    refine List.pairwise_cons.2 ⟨fun b hb e => ?_, ih⟩
    exact dedup_not_seen members _ _ b hb (e ▸ List.mem_cons_self _ _)
  | case4 seen t rest hnot hncond ih =>
    rw [dedupLoop, if_neg hnot, if_neg hncond]
    refine List.pairwise_cons.2 ⟨fun b hb e => ?_, ih⟩
    exact dedup_not_seen members _ _ b hb (e ▸ List.mem_cons_self _ _)

theorem dedup_find (members : List TeamMember) :
    ∀ (seen : List String) (l : List BusinessTrip),
      ∀ u ∈ (dedupLoop members seen l).1,
        l.find? (fun t => tripKey t == tripKey u) = some u := by
  intro seen l
  induction seen, l using dedupLoop.induct members with
  | case1 seen => intro u hu; cases hu
  | case2 seen t rest hseen ih =>
    intro u hu
    rw [dedupLoop, if_pos hseen] at hu
    have hne : tripKey t ≠ tripKey u := by
      intro e
      exact dedup_not_seen members _ _ u hu (e ▸ hseen)
    rw [List.find?_cons_of_neg _ (by simpa using hne)]
    exact ih u hu
  | case3 seen t rest hnot hcond ih =>
    intro u hu
    rw [dedupLoop, if_neg hnot, if_pos hcond] at hu
    rcases List.mem_cons.1 hu with rfl | hm
    · exact List.find?_cons_of_pos _ (by simp)
    · have hnotk : tripKey u ∉ tripKey t :: seen := dedup_not_seen members _ _ u hm
      have hne : tripKey t ≠ tripKey u := fun e =>
        hnotk (e ▸ List.mem_cons_self _ _)
      rw [List.find?_cons_of_neg _ (by simpa using hne)]
      exact ih u hm
  | case4 seen t rest hnot hncond ih =>
    intro u hu
    rw [dedupLoop, if_neg hnot, if_neg hncond] at hu
    rcases List.mem_cons.1 hu with rfl | hm
    · exact List.find?_cons_of_pos _ (by simp)
    · have hnotk : tripKey u ∉ tripKey t :: seen := dedup_not_seen members _ _ u hm
      have hne : tripKey t ≠ tripKey u := fun e =>
        hnotk (e ▸ List.mem_cons_self _ _)
      rw [List.find?_cons_of_neg _ (by simpa using hne)]
      exact ih u hm

theorem dedup_cover (members : List TeamMember) :
    ∀ (seen : List String) (l : List BusinessTrip), ∀ t ∈ l,
      tripKey t ∈ seen ∨
        ∃ u ∈ (dedupLoop members seen l).1, tripKey u = tripKey t := by
  intro seen l
  induction seen, l using dedupLoop.induct members with
  | case1 seen => intro t ht; cases ht
  | case2 seen t rest hseen ih =>
    intro v hv
    rw [dedupLoop, if_pos hseen]
    rcases List.mem_cons.1 hv with rfl | hm
    · exact Or.inl hseen
    · exact ih v hm
  | case3 seen t rest hnot hcond ih =>
    intro v hv
    rw [dedupLoop, if_neg hnot, if_pos hcond]
    rcases List.mem_cons.1 hv with rfl | hm
    · exact Or.inr ⟨v, List.mem_cons_self _ _, rfl⟩
    · rcases ih v hm with hseen' | ⟨u, hu, he⟩
      · rcases List.mem_cons.1 hseen' with he | hs
        · exact Or.inr ⟨t, List.mem_cons_self _ _, he.symm⟩
        · exact Or.inl hs
      · exact Or.inr ⟨u, List.mem_cons_of_mem _ hu, he⟩
  | case4 seen t rest hnot hncond ih =>
    intro v hv
    rw [dedupLoop, if_neg hnot, if_neg hncond]
    rcases List.mem_cons.1 hv with rfl | hm
    · exact Or.inr ⟨v, List.mem_cons_self _ _, rfl⟩
    · rcases ih v hm with hseen' | ⟨u, hu, he⟩
      · rcases List.mem_cons.1 hseen' with he | hs
        · exact Or.inr ⟨t, List.mem_cons_self _ _, he.symm⟩
        · exact Or.inl hs
      · exact Or.inr ⟨u, List.mem_cons_of_mem _ hu, he⟩

theorem dedup_amb (members : List TeamMember) :
    ∀ (seen : List String) (l : List BusinessTrip),
      ∀ pr ∈ (dedupLoop members seen l).2, pr.1 ∈ (dedupLoop members seen l).1 := by
  intro seen l
  induction seen, l using dedupLoop.induct members with
  | case1 seen => intro pr hpr; cases hpr
  | case2 seen t rest hseen ih =>
    intro pr hpr
    rw [dedupLoop, if_pos hseen] at hpr ⊢
    exact ih pr hpr
  | case3 seen t rest hnot hcond ih =>
    intro pr hpr
    rw [dedupLoop, if_neg hnot, if_pos hcond] at hpr ⊢
    rcases List.mem_cons.1 hpr with rfl | hm
    · exact List.mem_cons_self _ _
    · exact List.mem_cons_of_mem _ (ih pr hm)
  | case4 seen t rest hnot hncond ih =>
    intro pr hpr
    rw [dedupLoop, if_neg hnot, if_neg hncond] at hpr ⊢
    exact List.mem_cons_of_mem _ (ih pr hpr)

theorem dedup_amb_complete (members : List TeamMember) :
    ∀ (seen : List String) (l : List BusinessTrip),
      ∀ t ∈ (dedupLoop members seen l).1, t.knoxId = none →
        1 < (lookupMembers members t.name).length →
        (t, lookupMembers members t.name) ∈ (dedupLoop members seen l).2 := by
  intro seen l
  induction seen, l using dedupLoop.induct members with
  | case1 seen => intro t ht; cases ht
  | case2 seen t rest hseen ih =>
    intro u hu
    rw [dedupLoop, if_pos hseen] at hu ⊢
    exact ih u hu
  | case3 seen t rest hnot hcond ih =>
    intro u hu hk hl
    rw [dedupLoop, if_neg hnot, if_pos hcond] at hu ⊢
    rcases List.mem_cons.1 hu with rfl | hm
    · exact List.mem_cons_self _ _
    · exact List.mem_cons_of_mem _ (ih u hm hk hl)
  | case4 seen t rest hnot hncond ih =>
    intro u hu hk hl
    rw [dedupLoop, if_neg hnot, if_neg hncond] at hu ⊢
    rcases List.mem_cons.1 hu with rfl | hm
    · exact absurd ⟨hk, hl⟩ hncond
    · exact ih u hm hk hl

theorem tripKnox_multi (members : List TeamMember) (name : String)
    (h : 1 < (lookupMembers members name).length) : tripKnox members name = none := by
  cases hl : lookupMembers members name with
  | nil => rw [tripKnox, hl]
  | cons a r =>
    cases r with
    | nil => rw [hl] at h; simp at h
    | cons b r2 => rw [tripKnox, hl]

/-- C3: for every trip returned by `parseTripText`: a name matching exactly
one roster member (by trimmed-name equality) yields that member's knoxId; a
name matching two or more members yields an undefined knoxId and an entry in
`ambiguousTrips` carrying all candidate members; a name matching no member is
listed in `unknownNames`, and `unknownNames` lists each name once. -/
theorem parse_knox_trichotomy (text : String) (members : List TeamMember)
    (y : Int) (now : String) (t : BusinessTrip)
    (ht : t ∈ (parseTripText text members y now).trips) :
    (∀ m, lookupMembers members t.name = [m] → t.knoxId = some m.knoxId) ∧
    (1 < (lookupMembers members t.name).length →
      t.knoxId = none ∧
      (t, lookupMembers members t.name) ∈
        (parseTripText text members y now).ambiguousTrips) ∧
    (lookupMembers members t.name = [] →
      t.name ∈ (parseTripText text members y now).unknownNames) ∧
    (parseTripText text members y now).unknownNames.Nodup := by
  have htrips : (parseTripText text members y now).trips =
      (dedupLoop members [] (rawParse text members y now).1).1 := rfl
  have hamb : (parseTripText text members y now).ambiguousTrips =
      (dedupLoop members [] (rawParse text members y now).1).2 := rfl
  have hunk : (parseTripText text members y now).unknownNames =
      (parseBlocks members (findBaseYear (prepLines text) y) now 0 []
        (prepLines text)).2 := rfl
  have hraw1 : (rawParse text members y now).1 =
      (parseBlocks members (findBaseYear (prepLines text) y) now 0 []
        (prepLines text)).1 := rfl
  rw [htrips] at ht
  have htraw : t ∈ (rawParse text members y now).1 := dedup_mem members _ _ t ht
  have hinv := trip_inv members (findBaseYear (prepLines text) y) now 0 []
    (prepLines text) t (by rw [hraw1] at htraw; exact htraw)
  refine ⟨?_, ?_, ?_, ?_⟩
  · intro m hm
    rw [hinv.1, tripKnox, hm]
  · intro hlen
    refine ⟨by rw [hinv.1]; exact tripKnox_multi members _ hlen, ?_⟩
    rw [hamb]
    exact dedup_amb_complete members [] _ t ht
      (by rw [hinv.1]; exact tripKnox_multi members _ hlen) hlen
  · intro hempty
    rw [hunk]
    exact hinv.2 hempty
  · rw [hunk]
    exact unk_nodup members _ now 0 [] _ List.nodup_nil

/-- Witness for C3: an ambiguous roster name lands in `ambiguousTrips` with
both candidates and no knoxId. -/
theorem parse_knox_trichotomy_w :
    (mkTrip 0 none "김철수" "2026-02-10" "2026-02-10" "출장" "T").knoxId = none ∧
    ((mkTrip 0 none "김철수" "2026-02-10" "2026-02-10" "출장" "T"),
        lookupMembers [⟨"김철수", "kim1"⟩, ⟨"김철수", "kim2"⟩] "김철수") ∈
      (parseTripText "02-10\n김철수\n출장"
        [⟨"김철수", "kim1"⟩, ⟨"김철수", "kim2"⟩] 2026 "T").ambiguousTrips :=
  (parse_knox_trichotomy "02-10\n김철수\n출장"
    [⟨"김철수", "kim1"⟩, ⟨"김철수", "kim2"⟩] 2026 "T"
    (mkTrip 0 none "김철수" "2026-02-10" "2026-02-10" "출장" "T")
    (by decide)).2.1 (by decide)

/-- C8: the trips list returned by `parseTripText` is deduplicated by
(name, startDate, endDate): no two returned trips share that triple; each
returned trip is the first raw trip with its key in scan (text) order; every
raw trip's key survives; and `ambiguousTrips` carries only trips present in
the deduplicated list. -/
theorem parse_dedup (text : String) (members : List TeamMember) (y : Int)
    (now : String) :
    (parseTripText text members y now).trips.Pairwise
      (fun a b => ¬(a.name = b.name ∧ a.startDate = b.startDate ∧
        a.endDate = b.endDate)) ∧
    (∀ u ∈ (parseTripText text members y now).trips,
      (rawParse text members y now).1.find?
        (fun t => tripKey t == tripKey u) = some u) ∧
    (∀ t ∈ (rawParse text members y now).1,
      ∃ u ∈ (parseTripText text members y now).trips, tripKey u = tripKey t) ∧
    (∀ pr ∈ (parseTripText text members y now).ambiguousTrips,
      pr.1 ∈ (parseTripText text members y now).trips) := by
  refine ⟨?_, ?_, ?_, ?_⟩
  · have hp := dedup_pairwise members [] (rawParse text members y now).1
    refine hp.imp ?_
    intro a b hne
    rintro ⟨h1, h2, h3⟩
    exact hne (by rw [tripKey, tripKey, h1, h2, h3])
  · intro u hu
    exact dedup_find members [] _ u hu
  · intro t ht
    rcases dedup_cover members [] _ t ht with hin | h
    · cases hin
    · exact h
  · intro pr hpr
    exact dedup_amb members [] _ pr hpr

/-- Witness for C8 on a text containing a duplicated block. -/
theorem parse_dedup_w :
    (parseTripText "02-10\n김철수\n출장\n02-10\n김철수\n출장"
        [⟨"김철수", "kim1"⟩, ⟨"김철수", "kim2"⟩] 2026 "T").trips.Pairwise
      (fun a b => ¬(a.name = b.name ∧ a.startDate = b.startDate ∧
        a.endDate = b.endDate)) ∧
    (∀ u ∈ (parseTripText "02-10\n김철수\n출장\n02-10\n김철수\n출장"
        [⟨"김철수", "kim1"⟩, ⟨"김철수", "kim2"⟩] 2026 "T").trips,
      (rawParse "02-10\n김철수\n출장\n02-10\n김철수\n출장"
        [⟨"김철수", "kim1"⟩, ⟨"김철수", "kim2"⟩] 2026 "T").1.find?
          (fun t => tripKey t == tripKey u) = some u) ∧
    (∀ t ∈ (rawParse "02-10\n김철수\n출장\n02-10\n김철수\n출장"
        [⟨"김철수", "kim1"⟩, ⟨"김철수", "kim2"⟩] 2026 "T").1,
      ∃ u ∈ (parseTripText "02-10\n김철수\n출장\n02-10\n김철수\n출장"
        [⟨"김철수", "kim1"⟩, ⟨"김철수", "kim2"⟩] 2026 "T").trips,
        tripKey u = tripKey t) ∧
    (∀ pr ∈ (parseTripText "02-10\n김철수\n출장\n02-10\n김철수\n출장"
        [⟨"김철수", "kim1"⟩, ⟨"김철수", "kim2"⟩] 2026 "T").ambiguousTrips,
      pr.1 ∈ (parseTripText "02-10\n김철수\n출장\n02-10\n김철수\n출장"
        [⟨"김철수", "kim1"⟩, ⟨"김철수", "kim2"⟩] 2026 "T").trips) :=
  parse_dedup "02-10\n김철수\n출장\n02-10\n김철수\n출장"
    [⟨"김철수", "kim1"⟩, ⟨"김철수", "kim2"⟩] 2026 "T"

end ToDo
